import Mathlib

/-!
Verification of the dag-dev BlockDAG development node against its
natural-language specification.

The definitions below are a shallow embedding of the TypeScript sources:

* Block.ts and DAGGraph.ts          (Block, computeHash, DAGGraph.addBlock, traversals)
* BlueSetAlgorithm.ts               (GHOSTDAG coloring pass)
* TransactionPool.ts                (mempool)
* EVMExecutor.ts                    (receipt production, balance accessors, checkpoints)
* Miner.ts                          (round-based block production)
* runtime helpers evm.ts            (parseEther, formatEther)

JavaScript Map and Set are modelled as insertion-ordered association lists,
bigint as Int (or Nat where the value is known non-negative), and
Array.prototype.sort as a stable sort with respect to the given comparator
(stability is guaranteed by the ECMAScript specification).  While loops over
worklists are modelled by fuel-based recursion with fuel large enough for the
loop at hand.  Calls into the external @ethereumjs libraries are modelled as
explicit parameters or, where the claim needs their behaviour, by definitions
marked as modelled from the spec.
-/

/-! ## SHA-256 over Nat (the Node crypto sha256 used by Block.computeHash) -/

def rotr32 (x n : Nat) : Nat := ((x >>> n) ||| (x <<< (32 - n))) % 4294967296

def sha256K : List Nat :=
  [1116352408, 1899447441, 3049323471, 3921009573, 961987163, 1508970993,
   2453635748, 2870763221, 3624381080, 310598401, 607225278, 1426881987,
   1925078388, 2162078206, 2614888103, 3248222580, 3835390401, 4022224774,
   264347078, 604807628, 770255983, 1249150122, 1555081692, 1996064986,
   2554220882, 2821834349, 2952996808, 3210313671, 3336571891, 3584528711,
   113926993, 338241895, 666307205, 773529912, 1294757372, 1396182291,
   1695183700, 1986661051, 2177026350, 2456956037, 2730485921, 2820302411,
   3259730800, 3345764771, 3516065817, 3600352804, 4094571909, 275423344,
   430227734, 506948616, 659060556, 883997877, 958139571, 1322822218,
   1537002063, 1747873779, 1955562222, 2024104815, 2227730452, 2361852424,
   2428436474, 2756734187, 3204031479, 3329325298]

structure Sha2Words where
  w0 : Nat
  w1 : Nat
  w2 : Nat
  w3 : Nat
  w4 : Nat
  w5 : Nat
  w6 : Nat
  w7 : Nat

def sha256H0 : Sha2Words :=
  ⟨1779033703, 3144134277, 1013904242, 2773480762,
   1359893119, 2600822924, 528734635, 1541459225⟩

def sha256LenBytes (bitLen : Nat) : List Nat :=
  [56, 48, 40, 32, 24, 16, 8, 0].map (fun k => (bitLen >>> k) % 256)

def sha256Pad (msg : List Nat) : List Nat :=
  let z := (119 - (msg.length % 64)) % 64
  msg ++ 0x80 :: List.replicate z 0 ++ sha256LenBytes (msg.length * 8)

def chunksOf64Aux : Nat → List Nat → List (List Nat)
  | 0, _ => []
  | _, [] => []
  | fuel + 1, x :: xs => (x :: xs).take 64 :: chunksOf64Aux fuel ((x :: xs).drop 64)

def chunksOf64 (l : List Nat) : List (List Nat) := chunksOf64Aux l.length l

def bytesToWords : List Nat → List Nat
  | b0 :: b1 :: b2 :: b3 :: rest =>
    ((b0 <<< 24) + (b1 <<< 16) + (b2 <<< 8) + b3) :: bytesToWords rest
  | _ => []

/-- Message-schedule extension; the working list is kept most-recent-first, so
the value 15 positions back sits at index 14, 2 back at index 1, and so on. -/
def sha256ExtendRev : Nat → List Nat → List Nat
  | 0, w => w
  | n + 1, w =>
    let x15 := w.getD 14 0
    let x2 := w.getD 1 0
    let s0 := (rotr32 x15 7) ^^^ (rotr32 x15 18) ^^^ (x15 >>> 3)
    let s1 := (rotr32 x2 17) ^^^ (rotr32 x2 19) ^^^ (x2 >>> 10)
    sha256ExtendRev n (((w.getD 15 0 + s0 + w.getD 6 0 + s1) % 4294967296) :: w)

def sha256Extend (n : Nat) (w : List Nat) : List Nat :=
  (sha256ExtendRev n w.reverse).reverse

def sha256Rounds : List Nat → List Nat → Sha2Words → Sha2Words
  | k :: ks, wi :: ws, ⟨a, b, c, d, e, f, g, h⟩ =>
    let s1 := (rotr32 e 6) ^^^ (rotr32 e 11) ^^^ (rotr32 e 25)
    let ch := (e &&& f) ^^^ ((4294967295 ^^^ e) &&& g)
    let t1 := (h + s1 + ch + k + wi) % 4294967296
    let s0 := (rotr32 a 2) ^^^ (rotr32 a 13) ^^^ (rotr32 a 22)
    let mj := (a &&& b) ^^^ (a &&& c) ^^^ (b &&& c)
    let t2 := (s0 + mj) % 4294967296
    sha256Rounds ks ws ⟨(t1 + t2) % 4294967296, a, b, c, (d + t1) % 4294967296, e, f, g⟩
  | _, _, st => st

def sha256Chunk (st : Sha2Words) (chunk : List Nat) : Sha2Words :=
  let w := sha256Extend 48 (bytesToWords chunk)
  let r := sha256Rounds sha256K w st
  ⟨(st.w0 + r.w0) % 4294967296, (st.w1 + r.w1) % 4294967296,
   (st.w2 + r.w2) % 4294967296, (st.w3 + r.w3) % 4294967296,
   (st.w4 + r.w4) % 4294967296, (st.w5 + r.w5) % 4294967296,
   (st.w6 + r.w6) % 4294967296, (st.w7 + r.w7) % 4294967296⟩

def hexDigitChar (n : Nat) : Char :=
  Char.ofNat (if n < 10 then 48 + n else 87 + n)

def toHex32 (x : Nat) : List Char :=
  (List.range 8).map (fun i => hexDigitChar ((x >>> ((7 - i) * 4)) % 16))

def sha256hex (s : String) : String :=
  let msg := s.data.map Char.toNat
  let f := (chunksOf64 (sha256Pad msg)).foldl sha256Chunk sha256H0
  String.mk (toHex32 f.w0 ++ toHex32 f.w1 ++ toHex32 f.w2 ++ toHex32 f.w3 ++
             toHex32 f.w4 ++ toHex32 f.w5 ++ toHex32 f.w6 ++ toHex32 f.w7)

/-! ## Data model: Transaction, BlockHeader, Block (Block.ts) -/

structure Transaction where
  hash : String
  from_ : String
  to_ : String
  value : Int
  data : String
  nonce : Nat
  gasLimit : Int
  gasPrice : Int
deriving DecidableEq

inductive Color where
  | blue
  | red
  | pending
deriving DecidableEq

structure BlockHeader where
  hash : String
  parentHashes : List String
  timestamp : Nat
  nonce : Nat
  stateRoot : String
  transactionsRoot : String
  miner : String
  difficulty : Nat
deriving DecidableEq

structure Block where
  header : BlockHeader
  transactions : List Transaction
  color : Color
  dagDepth : Nat
  blueScore : Nat
deriving DecidableEq

/-- JSON string escaping as JSON.stringify performs it on the hash and address
strings fed to the block hash (control characters never occur there). -/
def jsonEscapeChar (c : Char) : List Char :=
  if c = '"' then ['\\', '"']
  else if c = '\\' then ['\\', '\\']
  else [c]

def jsonQuote (s : String) : String :=
  "\"" ++ String.mk (s.data.foldr (fun c acc => jsonEscapeChar c ++ acc) []) ++ "\""

/-- The JSON.stringify serialization built by Block.computeHash.  Note that the
object contains exactly the five fields parentHashes, timestamp, nonce,
transactionsRoot and miner; stateRoot is not part of it. -/
def serializeHeader (h : BlockHeader) : String :=
  "\x7b\"parentHashes\":[" ++ String.intercalate "," (h.parentHashes.map jsonQuote) ++
  "],\"timestamp\":" ++ toString h.timestamp ++
  ",\"nonce\":" ++ toString h.nonce ++
  ",\"transactionsRoot\":" ++ jsonQuote h.transactionsRoot ++
  ",\"miner\":" ++ jsonQuote h.miner ++ "\x7d"

/-- Block.computeHash: sha256 hex digest of the serialized header. -/
def computeHash (b : Block) : String := sha256hex (serializeHeader b.header)

/-- The Block constructor: header with empty hash, timestamp from Date.now()
(passed in as now), nonce 0, stateRoot and transactionsRoot 0x0, difficulty 1,
color pending, dagDepth 0, blueScore 0, and then hash := computeHash. -/
def Block.new (parentHashes : List String) (transactions : List Transaction)
    (miner : String) (now : Nat) : Block :=
  let header0 : BlockHeader :=
    { hash := "", parentHashes := parentHashes, timestamp := now, nonce := 0,
      stateRoot := "0x0", transactionsRoot := "0x0", miner := miner, difficulty := 1 }
  let b0 : Block :=
    { header := header0, transactions := transactions, color := .pending,
      dagDepth := 0, blueScore := 0 }
  { b0 with header := { header0 with hash := computeHash b0 } }

def Block.isGenesisB (b : Block) : Bool := b.header.parentHashes.isEmpty

/-- Miner.mineBlock lines 217 to 220: after execution the miner stores the
post-execution state root in the header and recomputes the hash. -/
def minerFinalize (b : Block) (stateRoot : String) : Block :=
  let b1 := { b with header := { b.header with stateRoot := stateRoot } }
  { b1 with header := { b1.header with hash := computeHash b1 } }

/-! ## JavaScript Map and Set helpers (insertion-ordered association lists) -/

def mapHas {α : Type} (m : List (String × α)) (k : String) : Bool :=
  (m.find? (fun e => e.1 == k)).isSome

def mapGet {α : Type} (m : List (String × α)) (k : String) : Option α :=
  (m.find? (fun e => e.1 == k)).map (fun e => e.2)

/-- Map.set: replaces in place when the key exists, otherwise appends
(JavaScript Map preserves first-insertion order). -/
def mapSet {α : Type} (m : List (String × α)) (k : String) (v : α) : List (String × α) :=
  if mapHas m k then m.map (fun e => if e.1 == k then (k, v) else e) else m ++ [(k, v)]

def mapDelete {α : Type} (m : List (String × α)) (k : String) : List (String × α) :=
  m.filter (fun e => !(e.1 == k))

/-- Set.add: appends when absent. -/
def setAdd (s : List String) (x : String) : List String :=
  if s.contains x then s else s ++ [x]

/-- Set.delete. -/
def setDelete (s : List String) (x : String) : List String :=
  s.filter (fun y => !(y == x))

/-! ## Stable sorting (Array.prototype.sort with a numeric comparator)

The two sort sites in the sources are
TransactionPool.getTransactionsByGasPrice, comparator
Number(b.tx.gasPrice - a.tx.gasPrice), i.e. ascending in the key
(-gasPrice), and BlueSetAlgorithm.computeBlueSet, comparator
a.dagDepth - b.dagDepth, i.e. ascending in the key dagDepth.  Array sort is
stable, so both are the stable sort ascending in the respective key. -/

def stableInsertBy {α : Type} (key : α → Int) (x : α) : List α → List α
  | [] => [x]
  | y :: ys => if key y < key x then y :: stableInsertBy key x ys else x :: y :: ys

def stableSortBy {α : Type} (key : α → Int) : List α → List α
  | [] => []
  | x :: xs => stableInsertBy key x (stableSortBy key xs)

/-! ## TransactionPool (TransactionPool.ts) -/

structure PendingTransaction where
  tx : Transaction
  addedAt : Nat
  attempts : Nat
deriving DecidableEq

structure TransactionPool where
  pool : List (String × PendingTransaction)
  maxSize : Nat
deriving DecidableEq

def TransactionPool.empty (maxSize : Nat) : TransactionPool := ⟨[], maxSize⟩

/-- The scan inside evictLowestGasPriceTx: lowestGasPrice starts at
BigInt(Number.MAX_SAFE_INTEGER) = 9007199254740991 and lowestTxHash at the
empty string; an entry is recorded only when strictly below the running
minimum. -/
def evictScan : List (String × PendingTransaction) → Int → String → String
  | [], _, best => best
  | (h, pt) :: rest, low, best =>
    if pt.tx.gasPrice < low then evictScan rest pt.tx.gasPrice h
    else evictScan rest low best

def evictLowestGasPriceTx (p : TransactionPool) : TransactionPool :=
  let lowestTxHash := evictScan p.pool 9007199254740991 ""
  if lowestTxHash == "" then p else { p with pool := mapDelete p.pool lowestTxHash }

/-- TransactionPool.addTransaction; now stands for Date.now() recorded in
addedAt. -/
def addTransaction (p : TransactionPool) (tx : Transaction) (now : Nat) :
    Bool × TransactionPool :=
  let p1 := if p.pool.length ≥ p.maxSize then evictLowestGasPriceTx p else p
  if mapHas p1.pool tx.hash then (false, p1)
  else (true, { p1 with pool := mapSet p1.pool tx.hash ⟨tx, now, 0⟩ })

def removeTransaction (p : TransactionPool) (txHash : String) : Bool × TransactionPool :=
  (mapHas p.pool txHash, { p with pool := mapDelete p.pool txHash })

def TransactionPool.size (p : TransactionPool) : Nat := p.pool.length

def TransactionPool.clearPool (p : TransactionPool) : TransactionPool := { p with pool := [] }

/-- slice(0, e) on an array, including the negative-end case. -/
def jsSliceTo {α : Type} (l : List α) (e : Int) : List α :=
  l.take (if e < 0 then ((l.length : Int) + e).toNat else e.toNat)

/-- TransactionPool.getTransactionsByGasPrice: stable sort of the pool values
by gasPrice descending, then map to the transaction, then
limit ? txs.slice(0, limit) : txs.  A limit of 0 is falsy in JavaScript, so it
returns the whole list. -/
def getTransactionsByGasPrice (p : TransactionPool) (limit : Option Int) :
    List Transaction :=
  let txs := (stableSortBy (fun pt => -pt.tx.gasPrice) (p.pool.map (fun e => e.2))).map
    (fun pt => pt.tx)
  match limit with
  | none => txs
  | some n => if n == 0 then txs else jsSliceTo txs n

def getPending (p : TransactionPool) (limit : Option Int) : List Transaction :=
  getTransactionsByGasPrice p limit

/-! ## parseEther and formatEther (runtime helpers evm.ts)

Decimal strings are modelled as lists of characters; parseEther and
formatEther wrap the character-list versions through String.data and
String.mk. -/

/-- BigInt(s) for a string of decimal digits. -/
def ofDecChars (l : List Char) : Nat :=
  l.foldl (fun a c => 10 * a + (c.toNat - 48)) 0

/-- bigint toString(): the decimal numeral of a non-negative value. -/
def natToDecChars (n : Nat) : List Char :=
  if n = 0 then ['0']
  else ((Nat.digits 10 n).reverse.map (fun d => Char.ofNat (48 + d)))

/-- padStart(n, 0). -/
def padStartZeros (n : Nat) (l : List Char) : List Char :=
  List.replicate (n - l.length) '0' ++ l

/-- padEnd(n, 0). -/
def padEndZeros (n : Nat) (l : List Char) : List Char :=
  l ++ List.replicate (n - l.length) '0'

/-- replace(/0+$/, ""). -/
def stripTrailingZeros (l : List Char) : List Char :=
  (l.reverse.dropWhile (fun c => c == '0')).reverse

/-- formatEther: pad the wei numeral to at least 19 digits, split off the last
18 as the fractional part, strip its trailing zeros, defaulting either part to
0 when empty. -/
def formatEtherChars (wei : Nat) : List Char :=
  let weiStr := padStartZeros 19 (natToDecChars wei)
  let whole0 := weiStr.take (weiStr.length - 18)
  let whole := if whole0.isEmpty then ['0'] else whole0
  let dec0 := stripTrailingZeros (weiStr.drop (weiStr.length - 18))
  let dec := if dec0.isEmpty then ['0'] else dec0
  whole ++ '.' :: dec

def formatEther (wei : Nat) : String := String.mk (formatEtherChars wei)

/-- split on the dot: const [whole, decimal = ""] = ethStr.split("."). -/
def splitDot (l : List Char) : List Char × List Char :=
  let whole := l.takeWhile (fun c => c != '.')
  match l.dropWhile (fun c => c != '.') with
  | [] => (whole, [])
  | _ :: rest => (whole, rest.takeWhile (fun c => c != '.'))

/-- parseEther: decimal part padded to 18 digits and truncated to 18, then the
concatenation parsed as one integer. -/
def parseEtherChars (l : List Char) : Nat :=
  let wd := splitDot l
  let paddedDecimal := (padEndZeros 18 wd.2).take 18
  ofDecChars (wd.1 ++ paddedDecimal)

def parseEther (s : String) : Nat := parseEtherChars s.data

/-! ## EVMExecutor (EVMExecutor.ts)

The external @ethereumjs EVM call is modelled as an explicit outcome
parameter: some r carries the execResult fields that executeTransaction
reads, none models a JavaScript exception escaping into the catch branch. -/

inductive TxStatus where
  | success
  | failed
deriving DecidableEq

structure TransactionReceipt where
  transactionHash : String
  blockHash : String
  from_ : String
  to_ : Option String
  gasUsed : Int
  cumulativeGasUsed : Int
  status : TxStatus
  contractAddress : Option String := none
deriving DecidableEq

structure ExecResult where
  executionGasUsed : Int
  exceptionError : Bool
  createdAddress : Option String := none
deriving DecidableEq

structure EVMResult where
  receipt : TransactionReceipt
  gasUsed : Int
  createdAddress : Option String := none
deriving DecidableEq

/-- EVMExecutor.deployContract (called when tx.to is empty): on a normal
return the receipt carries gasUsed = gasLimit - executionGasUsed and status
from exceptionError; the inner catch branch consumes the whole gasLimit. -/
def deployContract (outcome : Option ExecResult) (cum : Int) (tx : Transaction)
    (blockHash : String) : EVMResult × Int :=
  match outcome with
  | some result =>
    let gasUsed := tx.gasLimit - result.executionGasUsed
    let cum1 := cum + gasUsed
    ({ receipt :=
        { transactionHash := tx.hash, blockHash := blockHash, from_ := tx.from_,
          to_ := none, gasUsed := gasUsed, cumulativeGasUsed := cum1,
          status := if result.exceptionError then .failed else .success,
          contractAddress := result.createdAddress },
       gasUsed := gasUsed, createdAddress := result.createdAddress }, cum1)
  | none =>
    let gasUsed := tx.gasLimit
    let cum1 := cum + gasUsed
    ({ receipt :=
        { transactionHash := tx.hash, blockHash := blockHash, from_ := tx.from_,
          to_ := none, gasUsed := gasUsed, cumulativeGasUsed := cum1,
          status := .failed }, gasUsed := gasUsed }, cum1)

/-- EVMExecutor.executeTransaction.  cum is the cumulativeGasUsed counter
threaded through the executor; the pair component is its new value. -/
def executeTransaction (outcome : Option ExecResult) (cum : Int) (tx : Transaction)
    (blockHash : String) : EVMResult × Int :=
  if tx.to_.isEmpty then deployContract outcome cum tx blockHash
  else
    match outcome with
    | some result =>
      let gasUsed := tx.gasLimit - result.executionGasUsed
      let cum1 := cum + gasUsed
      ({ receipt :=
          { transactionHash := tx.hash, blockHash := blockHash, from_ := tx.from_,
            to_ := some tx.to_, gasUsed := gasUsed, cumulativeGasUsed := cum1,
            status := if result.exceptionError then .failed else .success },
         gasUsed := gasUsed }, cum1)
    | none =>
      let gasUsed := tx.gasLimit
      let cum1 := cum + gasUsed
      ({ receipt :=
          { transactionHash := tx.hash, blockHash := blockHash, from_ := tx.from_,
            to_ := some tx.to_, gasUsed := gasUsed, cumulativeGasUsed := cum1,
            status := .failed }, gasUsed := gasUsed }, cum1)

/-! ## World state for the balance and checkpoint accessors -/

structure SMAccount where
  balance : Nat
  nonce : Nat
deriving DecidableEq

/-- Modelled from the spec: the external @ethereumjs MerkleStateManager that
EVMExecutor instantiates.  It starts empty, getAccount returns undefined for
an address that has never been written, and checkpoint, commit and revert form
a nested LIFO discipline in which revert restores exactly the state captured
by the most recent checkpoint. -/
structure MerkleStateManager where
  accounts : List (String × SMAccount)
  checkpoints : List (List (String × SMAccount))
deriving DecidableEq

def MerkleStateManager.fresh : MerkleStateManager := ⟨[], []⟩

def smGetAccount (sm : MerkleStateManager) (addr : String) : Option SMAccount :=
  mapGet sm.accounts addr

def smPutAccount (sm : MerkleStateManager) (addr : String) (a : SMAccount) :
    MerkleStateManager :=
  { sm with accounts := mapSet sm.accounts addr a }

def smCheckpoint (sm : MerkleStateManager) : MerkleStateManager :=
  { sm with checkpoints := sm.accounts :: sm.checkpoints }

def smRevert (sm : MerkleStateManager) : MerkleStateManager :=
  match sm.checkpoints with
  | [] => sm
  | saved :: rest => ⟨saved, rest⟩

def smCommit (sm : MerkleStateManager) : MerkleStateManager :=
  { sm with checkpoints := sm.checkpoints.tail }

/-- EVMExecutor.setBalance: fetch the account and, only when it exists, write
it back with the new balance; an absent account is left absent. -/
def setBalance (sm : MerkleStateManager) (address : String) (balance : Nat) :
    MerkleStateManager :=
  match smGetAccount sm address with
  | some account => smPutAccount sm address { account with balance := balance }
  | none => sm

/-- EVMExecutor.getBalance: account ? account.balance : 0. -/
def getBalance (sm : MerkleStateManager) (address : String) : Nat :=
  match smGetAccount sm address with
  | some account => account.balance
  | none => 0

/-! ## DAGGraph (DAGGraph.ts) and BlueSetAlgorithm (BlueSetAlgorithm.ts) -/

structure DAGGraph where
  k : Nat
  blocks : List (String × Block)
  children : List (String × List String)
  tips : List String
  genesisHash : String
deriving DecidableEq

/-- The DAGGraph constructor with its initializeGenesis step: the genesis
block is built by the Block constructor with no parents, no transactions and
miner 0xGenesisMiner, then colored blue with depth 0 and blueScore 0.  now is
the Date.now() value observed at construction. -/
def DAGGraph.create (k : Nat) (now : Nat) : DAGGraph :=
  let g0 := Block.new [] [] "0xGenesisMiner" now
  let genesisBlock := { g0 with color := Color.blue, dagDepth := 0, blueScore := 0 }
  { k := k,
    blocks := [(genesisBlock.header.hash, genesisBlock)],
    children := [(genesisBlock.header.hash, [])],
    tips := [genesisBlock.header.hash],
    genesisHash := genesisBlock.header.hash }

def getBlockD (dag : DAGGraph) (h : String) : Option Block := mapGet dag.blocks h

def getAllBlocks (dag : DAGGraph) : List Block := dag.blocks.map (fun e => e.2)

def getChildrenD (dag : DAGGraph) (h : String) : List String :=
  (mapGet dag.children h).getD []

/-- Fuel bound for the worklist loops: every loop iteration pops one element,
each hash is expanded at most once, and an expansion enqueues at most its list
of parents or children, so the total number of iterations is bounded by the
number of blocks plus the total number of parent references (and symmetrically
child references, which equal parent references). -/
def totalParentRefs (dag : DAGGraph) : Nat :=
  (dag.blocks.map (fun e => e.2.header.parentHashes.length)).sum

def bfsFuel (dag : DAGGraph) : Nat :=
  2 * (dag.blocks.length + totalParentRefs dag) + 2

/-- BlueSetAlgorithm.getPast worklist loop. -/
def getPastAux (dag : DAGGraph) : Nat → List String → List String → List String
  | 0, _, past => past
  | _ + 1, [], past => past
  | fuel + 1, hash :: queue, past =>
    if past.contains hash then getPastAux dag fuel queue past
    else
      match mapGet dag.blocks hash with
      | some parentBlock =>
        getPastAux dag fuel (queue ++ parentBlock.header.parentHashes) (past ++ [hash])
      | none => getPastAux dag fuel queue (past ++ [hash])

def getPast (block : Block) (dag : DAGGraph) : List String :=
  getPastAux dag (bfsFuel dag + block.header.parentHashes.length)
    block.header.parentHashes []

/-- BlueSetAlgorithm.getFuture worklist loop: children are added to the future
set and enqueued when not seen yet. -/
def getFutureAux (dag : DAGGraph) : Nat → List String → List String → List String
  | 0, _, future => future
  | _ + 1, [], future => future
  | fuel + 1, hash :: queue, future =>
    let step := (getChildrenD dag hash).foldl
      (fun (acc : List String × List String) childHash =>
        if acc.1.contains childHash then acc
        else (acc.1 ++ [childHash], acc.2 ++ [childHash])) (future, queue)
    getFutureAux dag fuel step.2 step.1

def getFuture (block : Block) (dag : DAGGraph) : List String :=
  getFutureAux dag (bfsFuel dag + 1) [block.header.hash] []

/-- BlueSetAlgorithm.calculateAnticoneSize: count the blue-set members that
are neither in the past nor in the future of the block. -/
def calculateAnticoneSize (block : Block) (blueSet : List String) (dag : DAGGraph) : Nat :=
  let blockPast := getPast block dag
  let blockFuture := getFuture block dag
  (blueSet.filter (fun h => !(blockPast.contains h) && !(blockFuture.contains h))).length

/-- The enumeration the coloring pass runs over: all non-genesis blocks of the
block map, stable-sorted by the comparator a.dagDepth - b.dagDepth. -/
def blueCandidates (dag : DAGGraph) : List Block :=
  stableSortBy (fun b => (b.dagDepth : Int))
    ((getAllBlocks dag).filter (fun b => !(Block.isGenesisB b)))

/-- BlueSetAlgorithm.computeBlueSet. -/
def computeBlueSet (dag : DAGGraph) : List String :=
  (blueCandidates dag).foldl
    (fun blueSet block =>
      if calculateAnticoneSize block blueSet dag ≤ dag.k then
        setAdd blueSet block.header.hash
      else blueSet)
    [dag.genesisHash]

/-- BlueSetAlgorithm.calculateBlueScore: number of blue-set members in the
past of the block.  Nothing in the sources ever calls this method. -/
def calculateBlueScore (block : Block) (blueSet : List String) (dag : DAGGraph) : Nat :=
  ((getPast block dag).filter (fun h => blueSet.contains h)).length

/-- DAGGraph.recomputeBlueSet: mark every block red, then mark the computed
blue set blue.  Only the color field is written. -/
def recomputeBlueSet (g : DAGGraph) : DAGGraph :=
  let blueSet := computeBlueSet g
  let g1 := { g with blocks := g.blocks.map (fun e => (e.1, { e.2 with color := Color.red })) }
  blueSet.foldl
    (fun g2 h =>
      match mapGet g2.blocks h with
      | some b => { g2 with blocks := mapSet g2.blocks h { b with color := Color.blue } }
      | none => g2)
    g1

/-- DAGGraph.updateBlockDepth: depth of the stored block becomes
max(parent depths) + 1 (0 when a parent is missing from the map). -/
def updateBlockDepth (g : DAGGraph) (block : Block) : DAGGraph :=
  let maxParentDepth := block.header.parentHashes.foldl
    (fun m p =>
      match mapGet g.blocks p with
      | some parent => if parent.dagDepth > m then parent.dagDepth else m
      | none => m) 0
  let stored : Block := { block with dagDepth := maxParentDepth + 1 }
  { g with blocks := mapSet g.blocks block.header.hash stored }

/-- childAdd: children.get(parentHash)?.add(blockHash) with optional
chaining, a no-op when the parent has no children entry. -/
def childAdd (m : List (String × List String)) (parentHash blockHash : String) :
    List (String × List String) :=
  match mapGet m parentHash with
  | some l => mapSet m parentHash (setAdd l blockHash)
  | none => m

/-- DAGGraph.addBlock.  The first component is ok false for a duplicate hash,
error for a missing parent (the thrown exception) and ok true on success; the
second component is the graph after the call. -/
def addBlock (g : DAGGraph) (block : Block) : Except String Bool × DAGGraph :=
  let blockHash := block.header.hash
  if mapHas g.blocks blockHash then (.ok false, g)
  else
    match block.header.parentHashes.find? (fun p => !(mapHas g.blocks p)) with
    | some missing => (.error ("Parent block " ++ missing ++ " not found"), g)
    | none =>
      let g1 := { g with blocks := mapSet g.blocks blockHash block,
                         children := mapSet g.children blockHash [] }
      let g2 := block.header.parentHashes.foldl
        (fun gacc parentHash =>
          { gacc with children := childAdd gacc.children parentHash blockHash,
                      tips := setDelete gacc.tips parentHash }) g1
      let g3 := { g2 with tips := setAdd g2.tips blockHash }
      let g4 := updateBlockDepth g3 block
      (.ok true, recomputeBlueSet g4)

/-- DAGGraph.getAncestors worklist loop. -/
def getAncestorsAux (dag : DAGGraph) :
    Nat → List String → List String → List String → List String
  | 0, _, _, ancestors => ancestors
  | _ + 1, [], _, ancestors => ancestors
  | fuel + 1, current :: queue, visited, ancestors =>
    if visited.contains current then getAncestorsAux dag fuel queue visited ancestors
    else
      let visited1 := visited ++ [current]
      match mapGet dag.blocks current with
      | none => getAncestorsAux dag fuel queue visited1 ancestors
      | some block =>
        let step := block.header.parentHashes.foldl
          (fun (acc : List String × List String) p => (setAdd acc.1 p, acc.2 ++ [p]))
          (ancestors, queue)
        getAncestorsAux dag fuel step.2 visited1 step.1

def getAncestors (dag : DAGGraph) (blockHash : String) : List String :=
  getAncestorsAux dag (bfsFuel dag + 1) [blockHash] [] []

def isBlue (dag : DAGGraph) (blockHash : String) : Bool :=
  match mapGet dag.blocks blockHash with
  | some b => b.color == Color.blue
  | none => false

def getBlueBlocks (dag : DAGGraph) : List Block :=
  (getAllBlocks dag).filter (fun b => b.color == Color.blue)

/-- Number of blue blocks among the ancestors (past cone) of a block, the
quantity the specification says blueScore should equal. -/
def blueAncestorCount (dag : DAGGraph) (blockHash : String) : Nat :=
  ((getAncestors dag blockHash).filter (fun h => isBlue dag h)).length

/-! ## Miner (Miner.ts) -/

structure MinerConfig where
  parallelism : Nat
  maxParents : Nat
  minerAddress : String

/-- The EVMExecutor instance the miner drives; the behaviour of the external
EVM is abstracted as functions over an arbitrary executor state.  execTx
returns none when executeTransaction throws (the per-transaction catch in
Miner.mineBlock skips the transaction). -/
structure EvmOracle (σ : Type) where
  execTx : σ → Transaction → String → Option (σ × TransactionReceipt)
  resetGas : σ → σ
  stateRootHex : σ → String

structure NodeState (σ : Type) where
  dag : DAGGraph
  txPool : TransactionPool
  receipts : List (String × TransactionReceipt)
  evm : σ

def generateTempBlockHash (now : Nat) (parentHashes : List String) : String :=
  "0xtemp_" ++ toString now ++ "_" ++ toString parentHashes.length

/-- setAdd-based dedup: Array.from(new Set(parents)) keeps first
occurrences. -/
def dedupFirst (l : List String) : List String := l.foldl setAdd []

/-- Miner.selectParentsFromTips. -/
def selectParentsFromTips (maxParents : Nat) (tips : List String) (blockIndex : Nat) :
    Except String (List String) :=
  if tips.isEmpty then .error "No tips available (should have at least genesis)"
  else if tips.length == 1 then .ok [tips.getD 0 ""]
  else
    let numParents := min maxParents tips.length
    let idxs :=
      if blockIndex == 0 then List.range numParents
      else if blockIndex == 1 && decide (tips.length ≥ 2) then
        (List.range numParents).map (fun i => (1 + i) % tips.length)
      else
        (List.range numParents).map (fun i => (blockIndex % tips.length + i) % tips.length)
    .ok (dedupFirst (idxs.map (fun i => tips.getD i "")))

/-- Miner.mineBlock: reset the cumulative gas, execute the transactions
against the EVM under a temporary block hash, index the receipts, include the
transactions whose execution did not throw, then build the block and stamp the
post-execution state root (recomputing the hash). -/
def mineBlock {σ : Type} (o : EvmOracle σ) (cfg : MinerConfig) (now : Nat) (evm : σ)
    (receipts : List (String × TransactionReceipt)) (transactions : List Transaction)
    (parentHashes : List String) : Block × σ × List (String × TransactionReceipt) :=
  let evm0 := o.resetGas evm
  let blockHash := generateTempBlockHash now parentHashes
  let r := transactions.foldl
    (fun (acc : σ × List (String × TransactionReceipt) × List Transaction) tx =>
      match o.execTx acc.1 tx blockHash with
      | some (evm2, receipt) => (evm2, mapSet acc.2.1 tx.hash receipt, acc.2.2 ++ [tx])
      | none => acc)
    (evm0, receipts, [])
  let stateRoot := o.stateRootHex r.1
  (minerFinalize (Block.new parentHashes r.2.2 cfg.minerAddress now) stateRoot, r.1, r.2.1)

/-- One iteration of the first loop of Miner.mineRound at block index i. -/
def mineRoundStep {σ : Type} (o : EvmOracle σ) (cfg : MinerConfig) (now : Nat)
    (currentTips : List String) (acc : List Block × NodeState σ) (i : Nat) :
    List Block × NodeState σ :=
  match selectParentsFromTips cfg.maxParents currentTips i with
  | .error _ => acc
  | .ok parents =>
    let transactions := getPending acc.2.txPool (some 10)
    let r := mineBlock o cfg now acc.2.evm acc.2.receipts transactions parents
    (acc.1 ++ [r.1], { acc.2 with evm := r.2.1, receipts := r.2.2 })

/-- The first loop of Miner.mineRound: the tips are captured once, then
parallelism blocks are built; a parent-selection error skips the block. -/
def mineRoundBlocks {σ : Type} (o : EvmOracle σ) (cfg : MinerConfig) (now : Nat)
    (s : NodeState σ) : List Block × NodeState σ :=
  let currentTips := s.dag.tips
  (List.range cfg.parallelism).foldl (mineRoundStep o cfg now currentTips) ([], s)

/-- The second loop of Miner.mineRound: every built block is appended to the
DAG (append errors are caught and ignored). -/
def mineRound {σ : Type} (o : EvmOracle σ) (cfg : MinerConfig) (now : Nat)
    (s : NodeState σ) : NodeState σ :=
  let r := mineRoundBlocks o cfg now s
  r.1.foldl (fun st block => { st with dag := (addBlock st.dag block).2 }) r.2

/-- The DAG states reachable by addBlock calls.  Blocks enter the DAG through
Miner.mineBlock, which builds them with the Block constructor and then stamps
a state root while recomputing the hash (a plain constructor block is the
special case stateRoot = 0x0). -/
inductive ReachableDAG : DAGGraph → Prop
  | create (k now : Nat) : ReachableDAG (DAGGraph.create k now)
  | step (g : DAGGraph) (parents : List String) (txs : List Transaction)
      (miner : String) (now : Nat) (stateRoot : String) :
      ReachableDAG g →
      ReachableDAG (addBlock g (minerFinalize (Block.new parents txs miner now) stateRoot)).2

/-! ## Concrete inputs used by the theorems below -/

/-- A block as the miner builds it before stamping the state root. -/
def blockBase : Block := Block.new ["0xp1"] [] "0xMinerAddress" 1234

/-- Transactions with gas prices 1 Gwei, 10 Gwei and 5 Gwei (the gas-price
ordering scenario of the specification). -/
def txLowGas : Transaction :=
  ⟨"0xLowGas", "0xs1", "0xd1", 0, "", 0, 21000, 1000000000⟩

def txHighGas : Transaction :=
  ⟨"0xHighGas", "0xs2", "0xd2", 0, "", 0, 21000, 10000000000⟩

def txMediumGas : Transaction :=
  ⟨"0xMediumGas", "0xs3", "0xd3", 0, "", 0, 21000, 5000000000⟩

/-- Pool of capacity 1000 holding the three transactions, inserted in the
order low, high, medium. -/
def poolLHM : TransactionPool :=
  (addTransaction
    (addTransaction
      (addTransaction (TransactionPool.empty 1000) txLowGas 0).2 txHighGas 1).2
    txMediumGas 2).2

/-- Two distinct transactions whose gasPrice equals
BigInt(Number.MAX_SAFE_INTEGER), the sentinel of evictLowestGasPriceTx. -/
def txMax1 : Transaction :=
  ⟨"0xtxmax1", "0xs1", "0xd1", 0, "", 0, 21000, 9007199254740991⟩

def txMax2 : Transaction :=
  ⟨"0xtxmax2", "0xs2", "0xd2", 0, "", 0, 21000, 9007199254740991⟩

/-- A pool with maxSize 1 after admitting both sentinel-priced transactions. -/
def c4Pool : TransactionPool :=
  (addTransaction (addTransaction (TransactionPool.empty 1) txMax1 0).2 txMax2 1).2

/-- A plain value-transfer transaction with gasLimit 100000. -/
def c6Tx : Transaction :=
  ⟨"0xtx6", "0xsender", "0xdest", 0, "", 0, 100000, 1000000000⟩

/-- The execResult of an out-of-gas execution: the whole gas limit was used
and exceptionError is set. -/
def c6OOG : ExecResult := ⟨100000, true, none⟩

def addrA : String := "0x1000000000000000000000000000000000000001"

/-- setBalance(A, 1000 ETH) on a fresh executor state. -/
def c7s1 : MerkleStateManager :=
  setBalance MerkleStateManager.fresh addrA 1000000000000000000000

/-- Then checkpoint() and setBalance(A, 999 wei). -/
def c7s3 : MerkleStateManager := setBalance (smCheckpoint c7s1) addrA 999

/-- A DAG created with the default k = 18 at time 0, and the state after
appending one miner-built child of genesis. -/
def dagT0 : DAGGraph := DAGGraph.create 18 0

def bChild : Block :=
  minerFinalize (Block.new [dagT0.genesisHash] [] "0xTestMiner" 1) "0xroot"

def dagT1 : DAGGraph := (addBlock dagT0 bChild).2

/-- A duplicate-hash block: its hash field is the genesis hash (the header
hash is a plain data field, assigned by the miner), and it names a parent
absent from the DAG. -/
def bDup : Block :=
  { header := { hash := dagT0.genesisHash, parentHashes := ["0xmissingparent"],
                timestamp := 9, nonce := 0, stateRoot := "0x0",
                transactionsRoot := "0x0", miner := "0xW", difficulty := 1 },
    transactions := [], color := .pending, dagDepth := 0, blueScore := 0 }

/-- A constructor-built block naming an absent parent. -/
def bMissing : Block := Block.new ["0xnoSuchParent"] [] "0xW" 9

/-- A block naming itself as its parent. -/
def bSelf : Block :=
  { header := { hash := "0xself", parentHashes := ["0xself"], timestamp := 9,
                nonce := 0, stateRoot := "0x0", transactionsRoot := "0x0",
                miner := "0xW", difficulty := 1 },
    transactions := [], color := .pending, dagDepth := 0, blueScore := 0 }

/-- A DAG with k = 1, and three miner-built children of genesis appended in
the two opposite insertion orders. -/
def dag3Base : DAGGraph := DAGGraph.create 1 0

def pA : Block := minerFinalize (Block.new [dag3Base.genesisHash] [] "0xA" 1) "0xr"

def pB : Block := minerFinalize (Block.new [dag3Base.genesisHash] [] "0xB" 2) "0xr"

def pC : Block := minerFinalize (Block.new [dag3Base.genesisHash] [] "0xC" 3) "0xr"

def dag3ABC : DAGGraph := (addBlock (addBlock (addBlock dag3Base pA).2 pB).2 pC).2

def dag3CBA : DAGGraph := (addBlock (addBlock (addBlock dag3Base pC).2 pB).2 pA).2

/-- A trivial EVM oracle for the mining-round scenario: every execution
succeeds with a fixed-shape receipt. -/
def o5 : EvmOracle Unit :=
  ⟨fun _ tx bh => some ((), ⟨tx.hash, bh, tx.from_, some tx.to_, 21000, 21000,
      TxStatus.success, none⟩),
   fun u => u, fun _ => "0xstateroot"⟩

def t5 : Transaction := ⟨"0xtx5", "0xs", "0xd", 0, "", 0, 21000, 1000000000⟩

def cfg5 : MinerConfig := ⟨1, 3, "0xMinerAddress"⟩

/-- Node state before the round: fresh DAG, the pool holding t5. -/
def s5 : NodeState Unit :=
  ⟨DAGGraph.create 18 0, (addTransaction (TransactionPool.empty 1000) t5 0).2, [], ()⟩

/-! ## Theorems -/

theorem stableInsertBy_perm {α : Type} (key : α → Int) (x : α) (l : List α) :
    (stableInsertBy key x l).Perm (x :: l) := by
  induction l with
  | nil => simp [stableInsertBy]
  | cons y ys ih =>
    simp only [stableInsertBy]
    split
    · exact (ih.cons y).trans (List.Perm.swap x y ys)
    · exact List.Perm.refl _

theorem stableSortBy_perm {α : Type} (key : α → Int) (l : List α) :
    (stableSortBy key l).Perm l := by
  induction l with
  | nil => simp [stableSortBy]
  | cons x xs ih =>
    exact (stableInsertBy_perm key x _).trans (ih.cons x)

theorem stableInsertBy_pairwise {α : Type} (key : α → Int) (x : α) (l : List α)
    (h : l.Pairwise (fun a b => key a ≤ key b)) :
    (stableInsertBy key x l).Pairwise (fun a b => key a ≤ key b) := by
  induction l with
  | nil => simp [stableInsertBy]
  | cons y ys ih =>
    rcases List.pairwise_cons.mp h with ⟨hy, hys⟩
    simp only [stableInsertBy]
    split
    · rename_i hlt
      refine List.pairwise_cons.mpr ⟨?_, ih hys⟩
      intro z hz
      rcases List.mem_cons.mp ((stableInsertBy_perm key x ys).mem_iff.mp hz) with hzx | hzys
      · subst hzx; exact le_of_lt hlt
      · exact hy z hzys
    · rename_i hge
      refine List.pairwise_cons.mpr ⟨?_, h⟩
      intro z hz
      rcases List.mem_cons.mp hz with hzy | hzys
      · subst hzy; exact le_of_not_lt hge
      · exact le_trans (le_of_not_lt hge) (hy z hzys)

theorem stableSortBy_pairwise {α : Type} (key : α → Int) (l : List α) :
    (stableSortBy key l).Pairwise (fun a b => key a ≤ key b) := by
  induction l with
  | nil => simp [stableSortBy]
  | cons x xs ih => exact stableInsertBy_pairwise key x _ ih

theorem stableInsertBy_filter {α : Type} (key : α → Int) (x : α) (l : List α) (k0 : Int) :
    (stableInsertBy key x l).filter (fun y => key y == k0) =
      if key x == k0 then x :: l.filter (fun y => key y == k0)
      else l.filter (fun y => key y == k0) := by
  induction l with
  | nil =>
    simp only [stableInsertBy]
    by_cases h : key x == k0 <;> simp [List.filter_cons, h]
  | cons y ys ih =>
    simp only [stableInsertBy]
    by_cases h1 : key y < key x
    · rw [if_pos h1, List.filter_cons, ih]
      by_cases h2 : (key x == k0) = true
      · have hk : key x = k0 := by simpa using h2
        have hyf : (key y == k0) = false := by
          simp only [beq_eq_false_iff_ne, ne_eq]
          omega
        simp [List.filter_cons, h2, hyf]
      · have h2f : (key x == k0) = false := by simpa using h2
        simp [List.filter_cons, h2f]
    · rw [if_neg h1]
      by_cases h2 : (key x == k0) = true <;> simp [List.filter_cons, h2]

theorem stableSortBy_filter {α : Type} (key : α → Int) (l : List α) (k0 : Int) :
    (stableSortBy key l).filter (fun y => key y == k0) =
      l.filter (fun y => key y == k0) := by
  induction l with
  | nil => simp [stableSortBy]
  | cons x xs ih =>
    simp only [stableSortBy, stableInsertBy_filter, ih, List.filter_cons]

theorem filter_map_comm {α β : Type} (f : α → β) (p : β → Bool) (l : List α) :
    (l.map f).filter p = (l.filter (fun a => p (f a))).map f := by
  induction l with
  | nil => simp
  | cons a l ih =>
    simp only [List.map_cons, List.filter_cons]
    by_cases h : p (f a) <;> simp [h, ih]

/-- Claim C4: admitting two transactions whose gasPrice equals
BigInt(Number.MAX_SAFE_INTEGER) into a pool of maxSize 1 leaves the pool at
size 2: the eviction scan never finds an entry strictly below its sentinel,
so nothing is evicted and the size bound is broken. -/
theorem mempool_eviction_sentinel_overflow :
    c4Pool.size = 2 ∧ c4Pool.maxSize = 1 ∧
    mapHas c4Pool.pool "0xtxmax1" = true ∧ mapHas c4Pool.pool "0xtxmax2" = true ∧
    (addTransaction (addTransaction (TransactionPool.empty 1) txMax1 0).2 txMax2 1).1 = true := by
  decide

/-- Claim C8, amended: getTransactionsByGasPrice with no limit returns a
permutation of the pool values, non-increasing in gasPrice, with transactions
of equal gasPrice kept in insertion order; a positive limit takes the prefix
of that ordering, a limit of 0 is falsy in JavaScript and returns the whole
ordering, and getPending is a strict alias. -/
theorem getTransactionsByGasPrice_ordering (p : TransactionPool) :
    (getTransactionsByGasPrice p none).Perm (p.pool.map (fun e => e.2.tx)) ∧
    (getTransactionsByGasPrice p none).Pairwise (fun a b => b.gasPrice ≤ a.gasPrice) ∧
    (∀ g : Int, (getTransactionsByGasPrice p none).filter (fun t => t.gasPrice == g) =
      (p.pool.map (fun e => e.2.tx)).filter (fun t => t.gasPrice == g)) ∧
    (∀ n : Int, 0 < n → getTransactionsByGasPrice p (some n) =
      (getTransactionsByGasPrice p none).take n.toNat) ∧
    getTransactionsByGasPrice p (some 0) = getTransactionsByGasPrice p none ∧
    (∀ limit, getPending p limit = getTransactionsByGasPrice p limit) := by
  refine ⟨?_, ?_, ?_, ?_, ?_, ?_⟩
  · show ((stableSortBy (fun pt => -pt.tx.gasPrice) (p.pool.map (fun e => e.2))).map
      (fun pt => pt.tx)).Perm (p.pool.map (fun e => e.2.tx))
    have h1 := (stableSortBy_perm (fun pt : PendingTransaction => -pt.tx.gasPrice)
      (p.pool.map (fun e => e.2))).map (fun pt => pt.tx)
    simpa [List.map_map, Function.comp] using h1
  · show ((stableSortBy (fun pt => -pt.tx.gasPrice) (p.pool.map (fun e => e.2))).map
      (fun pt => pt.tx)).Pairwise (fun a b => b.gasPrice ≤ a.gasPrice)
    rw [List.pairwise_map]
    refine (stableSortBy_pairwise _ _).imp ?_
    intro a b hab
    omega
  · intro g
    have hpred : ∀ pt : PendingTransaction,
        (pt.tx.gasPrice == g) = ((-pt.tx.gasPrice) == (-g)) := by
      intro pt
      rcases eq_or_ne pt.tx.gasPrice g with h | h
      · simp [h]
      · have h2 : -pt.tx.gasPrice ≠ -g := fun hh => h (neg_inj.mp hh)
        simp [h, h2]
    have hfix : (stableSortBy (fun pt : PendingTransaction => -pt.tx.gasPrice)
          (p.pool.map (fun e => e.2))).filter (fun pt => pt.tx.gasPrice == g) =
        (p.pool.map (fun e => e.2)).filter (fun pt => pt.tx.gasPrice == g) := by
      rw [List.filter_congr (fun pt _ => hpred pt), stableSortBy_filter]
      exact List.filter_congr (fun pt _ => (hpred pt).symm)
    have hmm : p.pool.map (fun e => e.2.tx) =
        (p.pool.map (fun e => e.2)).map (fun pt => pt.tx) := by
      rw [List.map_map]
      rfl
    show ((stableSortBy (fun pt => -pt.tx.gasPrice) (p.pool.map (fun e => e.2))).map
      (fun pt => pt.tx)).filter (fun t => t.gasPrice == g) =
      (p.pool.map (fun e => e.2.tx)).filter (fun t => t.gasPrice == g)
    rw [hmm, filter_map_comm, filter_map_comm, hfix]
  · intro n hn
    have h0 : (n == 0) = false := by simp; omega
    have h1 : ¬ n < 0 := by omega
    simp [getTransactionsByGasPrice, jsSliceTo, h0, h1]
  · simp [getTransactionsByGasPrice]
  · intro limit
    rfl

/-- Claim C8, witness: on the pool holding the 1, 10 and 5 Gwei transactions,
the no-limit ordering is high, medium, low, and limit 2 takes its prefix. -/
theorem getTransactionsByGasPrice_ordering_witness :
    getTransactionsByGasPrice poolLHM none = [txHighGas, txMediumGas, txLowGas] ∧
    getTransactionsByGasPrice poolLHM (some 2) =
      (getTransactionsByGasPrice poolLHM none).take (2 : Int).toNat :=
  ⟨by decide, (getTransactionsByGasPrice_ordering poolLHM).2.2.2.1 2 (by decide)⟩

/-- Claim C8, counterexample: with limit 0 the code returns the whole
ordering, not the first 0 elements, because 0 is falsy in JavaScript. -/
theorem getTransactionsByGasPrice_limit_zero_counterexample :
    getTransactionsByGasPrice poolLHM (some 0) ≠
      (getTransactionsByGasPrice poolLHM none).take (0 : Int).toNat := by
  decide

theorem ofDecChars_cons_zero (l : List Char) : ofDecChars ('0' :: l) = ofDecChars l := by
  simp only [ofDecChars, List.foldl_cons]
  have h0 : 10 * 0 + ('0'.toNat - 48) = 0 := by decide
  rw [h0]

theorem ofDecChars_replicate_zero (k : Nat) (l : List Char) :
    ofDecChars (List.replicate k '0' ++ l) = ofDecChars l := by
  induction k with
  | zero => simp
  | succ n ih =>
    rw [List.replicate_succ, List.cons_append, ofDecChars_cons_zero, ih]

theorem foldl_digits_reverse (ds : List Nat) (acc : Nat) :
    ds.reverse.foldl (fun a d => 10 * a + d) acc = acc * 10 ^ ds.length + Nat.ofDigits 10 ds := by
  induction ds generalizing acc with
  | nil => simp [Nat.ofDigits]
  | cons d tl ih =>
    rw [List.reverse_cons, List.foldl_append, ih]
    simp only [List.foldl_cons, List.foldl_nil, Nat.ofDigits_cons, List.length_cons]
    ring

theorem foldl_char_digits (ds : List Nat) (acc : Nat) (h : ∀ d ∈ ds, d < 10) :
    ds.foldl (fun a d => 10 * a + ((Char.ofNat (48 + d)).toNat - 48)) acc =
      ds.foldl (fun a d => 10 * a + d) acc := by
  induction ds generalizing acc with
  | nil => rfl
  | cons d tl ih =>
    have hd : d < 10 := h d (List.mem_cons_self d tl)
    have hc : (Char.ofNat (48 + d)).toNat - 48 = d := by interval_cases d <;> decide
    simp only [List.foldl_cons, hc]
    exact ih _ (fun x hx => h x (List.mem_cons_of_mem d hx))

theorem ofDecChars_natToDecChars (n : Nat) : ofDecChars (natToDecChars n) = n := by
  by_cases h : n = 0
  · subst h; decide
  · simp only [natToDecChars, if_neg h]
    rw [ofDecChars, List.foldl_map]
    have hall : ∀ d ∈ (Nat.digits 10 n).reverse, d < 10 := by
      intro d hd
      exact Nat.digits_lt_base (by norm_num) (List.mem_reverse.mp hd)
    rw [foldl_char_digits _ _ hall, foldl_digits_reverse]
    simp [Nat.ofDigits_digits]

theorem natToDecChars_digits (n : Nat) :
    ∀ c ∈ natToDecChars n, 48 ≤ c.toNat ∧ c.toNat ≤ 57 := by
  intro c hc
  by_cases h : n = 0
  · subst h
    have h0 : natToDecChars 0 = ['0'] := rfl
    rw [h0, List.mem_singleton] at hc
    subst hc; decide
  · simp only [natToDecChars, if_neg h] at hc
    obtain ⟨d, hd, rfl⟩ := List.mem_map.mp hc
    have hlt : d < 10 := Nat.digits_lt_base (by norm_num) (List.mem_reverse.mp hd)
    interval_cases d <;> exact ⟨by decide, by decide⟩

theorem digit_bne_dot (c : Char) (h : 48 ≤ c.toNat ∧ c.toNat ≤ 57) : (c != '.') = true := by
  refine bne_iff_ne.mpr ?_
  intro hc
  subst hc
  revert h
  decide

theorem takeWhile_append_all (p : Char → Bool) (l₁ l₂ : List Char)
    (h : ∀ c ∈ l₁, p c = true) :
    (l₁ ++ l₂).takeWhile p = l₁ ++ l₂.takeWhile p := by
  induction l₁ with
  | nil => simp
  | cons c t ih =>
    have hc : p c = true := h c (List.mem_cons_self c t)
    simp only [List.cons_append, List.takeWhile_cons, hc, if_true]
    rw [ih (fun x hx => h x (List.mem_cons_of_mem c hx))]

theorem dropWhile_append_all (p : Char → Bool) (l₁ l₂ : List Char)
    (h : ∀ c ∈ l₁, p c = true) :
    (l₁ ++ l₂).dropWhile p = l₂.dropWhile p := by
  induction l₁ with
  | nil => simp
  | cons c t ih =>
    have hc : p c = true := h c (List.mem_cons_self c t)
    simp only [List.cons_append, List.dropWhile_cons, hc, if_true]
    exact ih (fun x hx => h x (List.mem_cons_of_mem c hx))

theorem splitDot_digits (whole dec : List Char)
    (hw : ∀ c ∈ whole, (c != '.') = true) (hd : ∀ c ∈ dec, (c != '.') = true) :
    splitDot (whole ++ '.' :: dec) = (whole, dec) := by
  unfold splitDot
  rw [takeWhile_append_all _ _ _ hw, dropWhile_append_all _ _ _ hw]
  have hdot : (('.' : Char) != '.') = false := by decide
  simp only [List.takeWhile_cons, List.dropWhile_cons, hdot, Bool.false_eq_true, if_false,
    List.append_nil]
  have hdec : dec.takeWhile (fun c => c != '.') = dec := by
    have := takeWhile_append_all (fun c => c != '.') dec [] hd
    simpa using this
  rw [hdec]

theorem strip_pad (l : List Char) :
    stripTrailingZeros l ++
      List.replicate (l.length - (stripTrailingZeros l).length) '0' = l := by
  unfold stripTrailingZeros
  have hsplit : List.takeWhile (fun c => c == '0') l.reverse ++
      List.dropWhile (fun c => c == '0') l.reverse = l.reverse :=
    List.takeWhile_append_dropWhile _ _
  have htall : ∀ c ∈ List.takeWhile (fun c => c == '0') l.reverse, c = '0' := by
    intro c hc
    have := List.mem_takeWhile_imp hc
    simpa using this
  have hrep := List.eq_replicate_of_mem htall
  have hlenEq := congrArg List.length hsplit
  simp only [List.length_append, List.length_reverse] at hlenEq
  conv_rhs => rw [← List.reverse_reverse l, ← hsplit]
  rw [List.reverse_append]
  congr 1
  rw [List.length_reverse]
  have hsub : l.length - (List.dropWhile (fun c => c == '0') l.reverse).length =
      (List.takeWhile (fun c => c == '0') l.reverse).length := by omega
  rw [hsub]
  conv_rhs => rw [hrep]
  rw [List.reverse_replicate]

theorem strip_length_le (l : List Char) : (stripTrailingZeros l).length ≤ l.length := by
  have := strip_pad l
  have hlen := congrArg List.length this
  simp only [List.length_append, List.length_replicate] at hlen
  omega

theorem padEnd_take_strip (l : List Char) (hlen : l.length = 18) :
    (padEndZeros 18 (if (stripTrailingZeros l).isEmpty then ['0']
      else stripTrailingZeros l)).take 18 = l := by
  by_cases he : (stripTrailingZeros l).isEmpty
  · have hnil : stripTrailingZeros l = [] := List.isEmpty_iff.mp he
    have hl : l = List.replicate 18 '0' := by
      have := strip_pad l
      rw [hnil, hlen] at this
      simpa using this.symm
    rw [if_pos he, hl]
    decide
  · rw [if_neg he]
    have hle : (stripTrailingZeros l).length ≤ 18 := hlen ▸ strip_length_le l
    have hpad : padEndZeros 18 (stripTrailingZeros l) = l := by
      unfold padEndZeros
      have := strip_pad l
      rw [hlen] at this
      exact this
    rw [hpad]
    exact List.take_of_length_le (le_of_eq hlen)

theorem mem_stripTrailingZeros {c : Char} {l : List Char}
    (h : c ∈ stripTrailingZeros l) : c ∈ l := by
  unfold stripTrailingZeros at h
  rw [List.mem_reverse] at h
  have hsub : List.Sublist (List.dropWhile (fun c => c == '0') l.reverse) l.reverse :=
    List.dropWhile_sublist _
  exact List.mem_reverse.mp (hsub.mem h)

/-- Claim C9: parseEther inverts formatEther on every non-negative wei
amount. -/
theorem parseEther_formatEther_round_trip (w : Nat) : parseEther (formatEther w) = w := by
  show parseEtherChars (formatEtherChars w) = w
  simp only [formatEtherChars]
  set s : List Char := padStartZeros 19 (natToDecChars w) with hs
  have hsd : ∀ c ∈ s, 48 ≤ c.toNat ∧ c.toNat ≤ 57 := by
    intro c hc
    rw [hs] at hc
    unfold padStartZeros at hc
    rcases List.mem_append.mp hc with hrep | hmem
    · have := List.eq_of_mem_replicate hrep
      subst this; exact ⟨by decide, by decide⟩
    · exact natToDecChars_digits w c hmem
  have hslen : 19 ≤ s.length := by
    rw [hs]
    unfold padStartZeros
    rw [List.length_append, List.length_replicate]
    omega
  have htklen : (s.take (s.length - 18)).length = s.length - 18 := by
    rw [List.length_take]
    omega
  have hIF : (s.take (s.length - 18)).isEmpty = false := by
    cases hE : (s.take (s.length - 18)).isEmpty
    · rfl
    · exfalso
      have := List.isEmpty_iff.mp hE
      have hlen0 := congrArg List.length this
      rw [htklen] at hlen0
      simp at hlen0
      omega
  have hdlen : (s.drop (s.length - 18)).length = 18 := by
    rw [List.length_drop]
    omega
  have hcond : ¬((s.take (s.length - 18)).isEmpty = true) := by
    rw [hIF]; simp
  rw [if_neg hcond]
  have hw : ∀ c ∈ s.take (s.length - 18), (c != '.') = true := by
    intro c hc
    exact digit_bne_dot c (hsd c (List.mem_of_mem_take hc))
  have hd : ∀ c ∈ (if (stripTrailingZeros (s.drop (s.length - 18))).isEmpty then ['0']
      else stripTrailingZeros (s.drop (s.length - 18))), (c != '.') = true := by
    intro c hc
    by_cases hE : (stripTrailingZeros (s.drop (s.length - 18))).isEmpty
    · rw [if_pos hE, List.mem_singleton] at hc
      subst hc; decide
    · rw [if_neg hE] at hc
      exact digit_bne_dot c (hsd c (List.mem_of_mem_drop (mem_stripTrailingZeros hc)))
  simp only [parseEtherChars]
  have h1 : (splitDot ((s.take (s.length - 18)) ++ '.' ::
      (if (stripTrailingZeros (s.drop (s.length - 18))).isEmpty then ['0']
        else stripTrailingZeros (s.drop (s.length - 18))))).1 = s.take (s.length - 18) := by
    rw [splitDot_digits _ _ hw hd]
  have h2 : (splitDot ((s.take (s.length - 18)) ++ '.' ::
      (if (stripTrailingZeros (s.drop (s.length - 18))).isEmpty then ['0']
        else stripTrailingZeros (s.drop (s.length - 18))))).2 =
      (if (stripTrailingZeros (s.drop (s.length - 18))).isEmpty then ['0']
        else stripTrailingZeros (s.drop (s.length - 18))) := by
    rw [splitDot_digits _ _ hw hd]
  rw [h1, h2, padEnd_take_strip _ hdlen, List.take_append_drop, hs]
  unfold padStartZeros
  rw [ofDecChars_replicate_zero, ofDecChars_natToDecChars]

/-- Claim C6, amended: when the EVM call returns with exceptionError set, the
receipt has status failed but gasUsed = gasLimit - executionGasUsed (the
library reports the gas actually consumed, so an out-of-gas failure records
gasUsed 0); the entire gasLimit is recorded only on the catch path, when the
call itself throws.  Rollback of the world state is delegated to the EVM
library. -/
theorem executeTransaction_exception_receipt (tx : Transaction) (cum : Int) (bh : String) :
    (∀ r : ExecResult, r.exceptionError = true →
      (executeTransaction (some r) cum tx bh).1.receipt.status = TxStatus.failed ∧
      (executeTransaction (some r) cum tx bh).1.receipt.gasUsed =
        tx.gasLimit - r.executionGasUsed) ∧
    ((executeTransaction none cum tx bh).1.receipt.status = TxStatus.failed ∧
      (executeTransaction none cum tx bh).1.receipt.gasUsed = tx.gasLimit) := by
  constructor
  · intro r hr
    by_cases h : tx.to_.isEmpty <;>
      simp [executeTransaction, deployContract, h, hr]
  · by_cases h : tx.to_.isEmpty <;>
      simp [executeTransaction, deployContract, h]

/-- Claim C6, witness: the amended statement instantiated at the out-of-gas
execution of the concrete transaction. -/
theorem executeTransaction_exception_receipt_witness :
    (executeTransaction (some c6OOG) 0 c6Tx "0xblock").1.receipt.status = TxStatus.failed ∧
    (executeTransaction (some c6OOG) 0 c6Tx "0xblock").1.receipt.gasUsed =
      c6Tx.gasLimit - c6OOG.executionGasUsed :=
  (executeTransaction_exception_receipt c6Tx 0 "0xblock").1 c6OOG (by decide)

/-- Claim C6, counterexample: an out-of-gas execution (exceptionError set,
executionGasUsed = gasLimit = 100000) yields a failed receipt whose gasUsed is
0, not the entire gasLimit as the claim states. -/
theorem executeTransaction_gasLimit_counterexample :
    (executeTransaction (some c6OOG) 0 c6Tx "0xblock").1.receipt.status = TxStatus.failed ∧
    (executeTransaction (some c6OOG) 0 c6Tx "0xblock").1.receipt.gasUsed = 0 ∧
    c6Tx.gasLimit = 100000 ∧
    (executeTransaction (some c6OOG) 0 c6Tx "0xblock").1.receipt.gasUsed ≠ c6Tx.gasLimit := by
  decide

/-- Claim C7: starting from a fresh executor state, setBalance never creates
an account (it only writes accounts that already exist), so the scenario
setBalance(A, 1000 ETH); checkpoint(); setBalance(A, 999) reads balance 0, and
after revert() it still reads 0 - not the 999 and 1000 ETH the claim
expects. -/
theorem setBalance_checkpoint_scenario :
    getBalance c7s3 addrA = 0 ∧
    getBalance (smRevert c7s3) addrA = 0 ∧
    smGetAccount MerkleStateManager.fresh addrA = none ∧
    c7s1 = MerkleStateManager.fresh := by
  decide

theorem mem_mapSet {α : Type} {m : List (String × α)} {k : String} {v : α} {e : String × α}
    (h : e ∈ mapSet m k v) : e.2 = v ∨ e ∈ m := by
  unfold mapSet at h
  by_cases hk : mapHas m k
  · rw [if_pos hk] at h
    obtain ⟨a, ha, hae⟩ := List.mem_map.mp h
    by_cases hak : (a.1 == k) = true
    · rw [if_pos hak] at hae
      left; rw [← hae]
    · rw [if_neg hak] at hae
      right; rw [← hae]; exact ha
  · rw [if_neg hk] at h
    rcases List.mem_append.mp h with h1 | h2
    · right; exact h1
    · left
      rw [List.mem_singleton] at h2
      rw [h2]

theorem mapGet_mem {α : Type} {m : List (String × α)} {k : String} {v : α}
    (h : mapGet m k = some v) : ∃ e ∈ m, e.2 = v := by
  unfold mapGet at h
  cases hf : m.find? (fun e => e.1 == k) with
  | none => rw [hf] at h; simp at h
  | some e =>
    rw [hf] at h
    exact ⟨e, List.mem_of_find?_eq_some hf, by simpa using h⟩

/-- Claim C10: addBlock is atomic on rejection.  A duplicate hash (checked
first) returns ok false with the graph exactly unchanged and no re-coloring;
a novel block naming any absent parent, itself included, raises the
missing-parent error with the graph exactly unchanged. -/
theorem addBlock_rejection_atomic (g : DAGGraph) (b : Block) :
    (mapHas g.blocks b.header.hash = true → addBlock g b = (Except.ok false, g)) ∧
    (mapHas g.blocks b.header.hash = false →
      (∃ p ∈ b.header.parentHashes, mapHas g.blocks p = false) →
      ∃ m, addBlock g b = (Except.error m, g)) ∧
    (mapHas g.blocks b.header.hash = false →
      b.header.parentHashes.contains b.header.hash = true →
      ∃ m, addBlock g b = (Except.error m, g)) := by
  have herr : mapHas g.blocks b.header.hash = false →
      (∃ p ∈ b.header.parentHashes, mapHas g.blocks p = false) →
      ∃ m, addBlock g b = (Except.error m, g) := by
    intro hnew hex
    obtain ⟨p, hp, hpAbs⟩ := hex
    have hfind : (b.header.parentHashes.find? (fun q => !(mapHas g.blocks q))).isSome := by
      rw [List.find?_isSome]
      exact ⟨p, hp, by simp [hpAbs]⟩
    obtain ⟨missing, hm⟩ := Option.isSome_iff_exists.mp hfind
    refine ⟨"Parent block " ++ missing ++ " not found", ?_⟩
    simp [addBlock, hnew, hm]
  refine ⟨?_, herr, ?_⟩
  · intro hdup
    simp [addBlock, hdup]
  · intro hnew hself
    refine herr hnew ⟨b.header.hash, ?_, hnew⟩
    simpa using hself

set_option maxRecDepth 4000000 in
/-- Claim C10, witness: on the freshly created DAG, a block reusing the
genesis hash is reported already-present with the graph unchanged, and a
constructor block naming an absent parent, as well as a block naming itself
as parent, raise the missing-parent error with the graph unchanged. -/
theorem addBlock_rejection_atomic_witness :
    addBlock dagT0 bDup = (Except.ok false, dagT0) ∧
    (∃ m, addBlock dagT0 bMissing = (Except.error m, dagT0)) ∧
    (∃ m, addBlock dagT0 bSelf = (Except.error m, dagT0)) :=
  ⟨(addBlock_rejection_atomic dagT0 bDup).1 (by decide),
   (addBlock_rejection_atomic dagT0 bMissing).2.1 (by decide) (by decide),
   (addBlock_rejection_atomic dagT0 bSelf).2.2 (by decide) (by decide)⟩

theorem recolor_fold_blueScore (bs : List String) (gacc : DAGGraph)
    (h : ∀ e ∈ gacc.blocks, e.2.blueScore = 0) :
    ∀ e ∈ (bs.foldl (fun g2 hsh =>
      match mapGet g2.blocks hsh with
      | some b => { g2 with blocks := mapSet g2.blocks hsh { b with color := Color.blue } }
      | none => g2) gacc).blocks, e.2.blueScore = 0 := by
  induction bs generalizing gacc with
  | nil => exact h
  | cons hsh rest ih =>
    simp only [List.foldl_cons]
    apply ih
    cases hmg : mapGet gacc.blocks hsh with
    | none => simpa [hmg] using h
    | some b =>
      simp only [hmg]
      intro e he
      rcases mem_mapSet he with h1 | h2
      · rw [h1]
        obtain ⟨eb, hebm, hebv⟩ := mapGet_mem hmg
        have hb0 : b.blueScore = 0 := by rw [← hebv]; exact h eb hebm
        simpa using hb0
      · exact h e h2

theorem recompute_blueScore {g : DAGGraph} (hg : ∀ e ∈ g.blocks, e.2.blueScore = 0) :
    ∀ e ∈ (recomputeBlueSet g).blocks, e.2.blueScore = 0 := by
  simp only [recomputeBlueSet]
  apply recolor_fold_blueScore
  intro e he
  obtain ⟨a, ha, hae⟩ := List.mem_map.mp he
  rw [← hae]
  simpa using hg a ha

theorem parentsFold_blocks (parents : List String) (g1 : DAGGraph) (blockHash : String) :
    (parents.foldl (fun gacc parentHash =>
      { gacc with children := childAdd gacc.children parentHash blockHash,
                  tips := setDelete gacc.tips parentHash }) g1).blocks = g1.blocks := by
  induction parents generalizing g1 with
  | nil => rfl
  | cons p ps ih =>
    simp only [List.foldl_cons]
    rw [ih]

theorem updateBlockDepth_blueScore {g : DAGGraph} {block : Block}
    (hg : ∀ e ∈ g.blocks, e.2.blueScore = 0) (hb : block.blueScore = 0) :
    ∀ e ∈ (updateBlockDepth g block).blocks, e.2.blueScore = 0 := by
  simp only [updateBlockDepth]
  intro e he
  rcases mem_mapSet he with h1 | h2
  · rw [h1]; simpa using hb
  · exact hg e h2

theorem addBlock_blueScore {g : DAGGraph} {b : Block}
    (hg : ∀ e ∈ g.blocks, e.2.blueScore = 0) (hb : b.blueScore = 0) :
    ∀ e ∈ (addBlock g b).2.blocks, e.2.blueScore = 0 := by
  unfold addBlock
  by_cases hdup : mapHas g.blocks b.header.hash
  · simpa [hdup] using hg
  · cases hfind : b.header.parentHashes.find? (fun p => !(mapHas g.blocks p)) with
    | some missing => simpa [hdup, hfind] using hg
    | none =>
      simp only [hdup, Bool.false_eq_true, if_false, hfind]
      apply recompute_blueScore
      apply updateBlockDepth_blueScore ?_ hb
      rw [parentsFold_blocks]
      intro e he
      rcases mem_mapSet he with h1 | h2
      · rw [h1]; exact hb
      · exact hg e h2

/-- Claim C2, amended: blueScore is never recomputed.  In every DAG state
reachable by addBlock calls on miner-built blocks, every stored block,
genesis included, has blueScore 0 (the constructor value);
BlueSetAlgorithm.calculateBlueScore exists but is never invoked. -/
theorem blueScore_zero_of_reachable (g : DAGGraph) (h : ReachableDAG g) :
    ∀ e ∈ g.blocks, e.2.blueScore = 0 := by
  induction h with
  | create k now =>
    intro e he
    simp only [DAGGraph.create, List.mem_singleton] at he
    rw [he]
  | step g parents txs miner now stateRoot hr ih =>
    exact addBlock_blueScore ih rfl

/-- Claim C2, amended witness: the invariant instantiated on the freshly
created DAG, expressed as a closed boolean check over its block map. -/
theorem blueScore_zero_of_reachable_witness :
    ((DAGGraph.create 18 0).blocks.map (fun e => e.2.blueScore)).all
      (fun n => n == 0) = true := by
  rw [List.all_eq_true]
  intro x hx
  obtain ⟨e, he, hev⟩ := List.mem_map.mp hx
  have := blueScore_zero_of_reachable (DAGGraph.create 18 0)
    (ReachableDAG.create 18 0) e he
  rw [← hev, this]
  rfl

set_option maxRecDepth 4000000 in
/-- Claim C2, counterexample: in the reachable state dagT1 the appended block
is blue and has exactly one blue ancestor (genesis), yet its stored blueScore
is 0. -/
theorem blueScore_mismatch_counterexample :
    ReachableDAG dagT1 ∧
    isBlue dagT1 bChild.header.hash = true ∧
    blueAncestorCount dagT1 bChild.header.hash = 1 ∧
    (getBlockD dagT1 bChild.header.hash).map (fun b => b.blueScore) = some 0 :=
  ⟨ReachableDAG.step dagT0 [dagT0.genesisHash] [] "0xTestMiner" 1 "0xroot"
      (ReachableDAG.create 18 0),
   by decide, by decide, by decide⟩

/-- Claim C3, amended: the coloring pass enumerates the non-genesis blocks in
non-decreasing dagDepth, with ties kept in block-map insertion order (the
comparator has no tie-break and array sort is stable); the enumeration is a
permutation of the non-genesis blocks and preserves the relative order of
blocks of equal depth. -/
theorem blueCandidates_enumeration (dag : DAGGraph) :
    (blueCandidates dag).Pairwise (fun a b => a.dagDepth ≤ b.dagDepth) ∧
    (blueCandidates dag).Perm ((getAllBlocks dag).filter (fun b => !(Block.isGenesisB b))) ∧
    (∀ d : Nat, (blueCandidates dag).filter (fun b => b.dagDepth == d) =
      ((getAllBlocks dag).filter (fun b => !(Block.isGenesisB b))).filter
        (fun b => b.dagDepth == d)) := by
  refine ⟨?_, stableSortBy_perm _ _, ?_⟩
  · have h := stableSortBy_pairwise (fun b : Block => (b.dagDepth : Int))
      ((getAllBlocks dag).filter (fun b => !(Block.isGenesisB b)))
    exact h.imp (fun hab => by exact_mod_cast hab)
  · intro d
    have hpred : ∀ b : Block,
        (b.dagDepth == d) = (((b.dagDepth : Nat) : Int) == ((d : Nat) : Int)) := by
      intro b
      rcases eq_or_ne b.dagDepth d with h | h
      · simp [h]
      · have h2 : ((b.dagDepth : Nat) : Int) ≠ ((d : Nat) : Int) := by exact_mod_cast h
        simp [h, h2]
    unfold blueCandidates
    rw [List.filter_congr (fun b _ => hpred b), stableSortBy_filter]
    exact List.filter_congr (fun b _ => (hpred b).symm)

set_option maxRecDepth 4000000 in
/-- Claim C3, counterexample: two DAGs built by addBlock from the same three
miner-built children of genesis (k = 1), inserted in opposite orders, hold
the same blocks (same hashes, headers, transactions and depths, hence the
same edges) up to insertion order, yet color the block pA differently, so the
blue set is not a function of the block set and edges alone and no hash
tie-break is applied. -/
theorem computeBlueSet_insertion_order_counterexample :
    (dag3ABC.blocks.map (fun e => (e.1, e.2.header, e.2.transactions, e.2.dagDepth))).Perm
      (dag3CBA.blocks.map (fun e => (e.1, e.2.header, e.2.transactions, e.2.dagDepth))) ∧
    isBlue dag3ABC pA.header.hash = true ∧
    isBlue dag3CBA pA.header.hash = false := by
  refine ⟨by decide, by decide, by decide⟩

theorem mineRoundStep_txPool {σ : Type} (o : EvmOracle σ) (cfg : MinerConfig) (now : Nat)
    (tips : List String) (acc : List Block × NodeState σ) (i : Nat) :
    (mineRoundStep o cfg now tips acc i).2.txPool = acc.2.txPool := by
  unfold mineRoundStep
  cases selectParentsFromTips cfg.maxParents tips i with
  | error e => rfl
  | ok parents => rfl

theorem foldl_mineRoundStep_txPool {σ : Type} (o : EvmOracle σ) (cfg : MinerConfig)
    (now : Nat) (tips : List String) (l : List Nat) (acc : List Block × NodeState σ) :
    (l.foldl (mineRoundStep o cfg now tips) acc).2.txPool = acc.2.txPool := by
  induction l generalizing acc with
  | nil => rfl
  | cons i rest ih => rw [List.foldl_cons, ih, mineRoundStep_txPool]

theorem mineRoundBlocks_txPool {σ : Type} (o : EvmOracle σ) (cfg : MinerConfig)
    (now : Nat) (s : NodeState σ) :
    (mineRoundBlocks o cfg now s).2.txPool = s.txPool := by
  unfold mineRoundBlocks
  exact foldl_mineRoundStep_txPool o cfg now s.dag.tips (List.range cfg.parallelism) ([], s)

theorem addFold_txPool {σ : Type} (blocks : List Block) (st : NodeState σ) :
    (blocks.foldl (fun st block => { st with dag := (addBlock st.dag block).2 }) st).txPool =
      st.txPool := by
  induction blocks generalizing st with
  | nil => rfl
  | cons b rest ih => rw [List.foldl_cons, ih]

theorem mineRound_txPool {σ : Type} (o : EvmOracle σ) (cfg : MinerConfig) (now : Nat)
    (s : NodeState σ) : (mineRound o cfg now s).txPool = s.txPool := by
  unfold mineRound
  rw [addFold_txPool, mineRoundBlocks_txPool]

/-- Claim C5, amended: a mining round never touches the mempool.  For every
EVM behaviour and every starting state, the pool after mineRound equals the
pool before it, so getPending returns the very same transactions in the next
round; included transactions are not removed (removeTransaction has no caller
in the miner). -/
theorem mineRound_pool_unchanged {σ : Type} (o : EvmOracle σ) (cfg : MinerConfig)
    (now : Nat) (s : NodeState σ) :
    (mineRound o cfg now s).txPool = s.txPool ∧
    ∀ limit, getPending (mineRound o cfg now s).txPool limit = getPending s.txPool limit :=
  ⟨mineRound_txPool o cfg now s, fun limit => by rw [mineRound_txPool]⟩

set_option maxRecDepth 4000000 in
/-- Claim C5, counterexample: a concrete round (parallelism 1, fresh DAG, pool
holding exactly t5) mines one block that includes t5 and appends it to the
DAG, yet getPending still returns t5 afterwards - the transaction was not
removed from the mempool. -/
theorem mineRound_keeps_included_tx :
    ((mineRoundBlocks o5 cfg5 7 s5).1.map (fun b => b.transactions)) = [[t5]] ∧
    (mineRound o5 cfg5 7 s5).dag.blocks.length = 2 ∧
    getPending (mineRound o5 cfg5 7 s5).txPool (some 10) = [t5] := by
  refine ⟨by decide, by decide, ?_⟩
  rw [mineRound_txPool]
  decide

/-- Claim C1: Block.computeHash serializes only parentHashes, timestamp,
nonce, transactionsRoot and miner, so two miner-finalized blocks that differ
only in stateRoot receive the same hash; the recomputation after execution in
Miner.mineBlock does not make the hash depend on the post-execution state
root. -/
theorem computeHash_ignores_stateRoot :
    (minerFinalize blockBase "0xaa").header.stateRoot ≠
      (minerFinalize blockBase "0xbb").header.stateRoot ∧
    (minerFinalize blockBase "0xaa").header.hash =
      (minerFinalize blockBase "0xbb").header.hash ∧
    computeHash (minerFinalize blockBase "0xaa") =
      computeHash (minerFinalize blockBase "0xbb") := by
  have hser : serializeHeader
      ({ blockBase with header := { blockBase.header with stateRoot := "0xaa" } } : Block).header =
      serializeHeader
      ({ blockBase with header := { blockBase.header with stateRoot := "0xbb" } } : Block).header := by
    decide
  have hser2 : serializeHeader (minerFinalize blockBase "0xaa").header =
      serializeHeader (minerFinalize blockBase "0xbb").header := by
    decide
  exact ⟨by decide, congrArg sha256hex hser, congrArg sha256hex hser2⟩

set_option maxRecDepth 1000000 in
/-- Sanity check: the SHA-256 embedding matches the standard test vector. -/
theorem sha256hex_abc :
    sha256hex "abc" = "ba7816bf8f01cfea414140de5dae2223b00361a396177a9cb410ff61f20015ad" := by
  decide
